import Mathlib

/-!
Verification of the bloomfilter-rs library: a bloom filter (two implementation
variants, `src/bloomfilter.rs` and `src/lib.rs`) and a d-ary min-heap
(`src/heap.rs`), shallowly embedded over `List Nat` byte buffers and
`List T` element sequences.  Rust panics (index out of bounds, division by
zero, failed asserts) are modelled by `Option`, `none` meaning the operation
panics.  Bytes are `Nat` values combined with the bitwise operations; hash
functions are modelled as arbitrary deterministic digest functions `E → Nat`
(the Rust code clones a hasher per probe, so each configured hasher yields a
reproducible digest per element).
-/

set_option maxHeartbeats 1600000
set_option maxRecDepth 16000

namespace BloomSpec

/-! ## Bit-index utilities (src/lib.rs, mod utils) -/

/-- Rust `utils::get_single_bit_mask`: returns `(n, mask)` where the `n`-th
byte holds the bit, and `mask` has exactly that bit set; bit 0 is the most
significant bit of byte 0 (`0x80`).  The source's `assert!(idx_in_elmt < 8)`
always holds since `idx_in_elmt = idx - (idx / 8) * 8 < 8`. -/
def get_single_bit_mask (idx : Nat) : Nat × Nat :=
  let bits_elmt := 8
  let n := idx / bits_elmt
  let idx_in_elmt := idx - n * bits_elmt
  (n, 0x80 >>> idx_in_elmt)

/-- Rust `utils::set_multi_bitmask`: OR-sets each listed bit into `mask`;
the source's `assert!(n < mask.len())` is modelled by returning `none`. -/
def set_multi_bitmask : List Nat → List Nat → Option (List Nat)
  | mask, [] => some mask
  | mask, idx :: rest =>
    let p := get_single_bit_mask idx
    if p.1 < mask.length then
      set_multi_bitmask (mask.set p.1 (mask.getD p.1 0 ||| p.2)) rest
    else none

/-- Specification helper (not from the source): the OR of the single-bit
masks of all listed bit indices that fall into byte `n`.  Used to
characterize what `set_multi_bitmask` and `set_bits_loop` write. -/
def byte_or (idxs : List Nat) (n : Nat) : Nat :=
  match idxs with
  | [] => 0
  | i :: rest => (if i / 8 = n then 128 >>> (i % 8) else 0) ||| byte_or rest n

/-! ## Bloom filter (src/bloomfilter.rs and src/lib.rs)

Both Rust files declare the same struct; the operations differ: the
`bloomfilter.rs` variant probes the storage bit by bit (`never_occured`,
`add`), while the `lib.rs` variant first builds a temporary mask buffer with
`set_multi_bitmask` and then combines it with the storage bytewise
(`never_occured2`, `add2` below).  `RandomState`-seeded hashers are modelled
as a supplied list of digest functions. -/

structure BloomFilter (E : Type) where
  data : List Nat
  data_len : Nat
  elmts_added : Nat
  hashers : List (E → Nat)

variable {E : Type} {T : Type}

/-- Rust `BloomFilter::from_initalized`: `data_len` is the supplied buffer's
length, `elmts_added` starts at 0. -/
def BloomFilter.from_initalized (store : List Nat) (hashers : List (E → Nat)) :
    BloomFilter E :=
  { data := store, data_len := store.length, elmts_added := 0, hashers := hashers }

/-- Rust `BloomFilter::default_with_settings`: a zeroed buffer of `n_bytes`
bytes; the `m_hashers` randomly seeded `DefaultHasher`s are modelled by the
supplied digest-function list. -/
def BloomFilter.default_with_settings (n_bytes : Nat) (hashers : List (E → Nat)) :
    BloomFilter E :=
  BloomFilter.from_initalized (List.replicate n_bytes 0) hashers

/-- Rust `BloomFilter::storage_size`. -/
def BloomFilter.storage_size (f : BloomFilter E) : Nat := f.data_len

/-- Rust `BloomFilter::num_hashers`. -/
def BloomFilter.num_hashers (f : BloomFilter E) : Nat := f.hashers.length

/-- Rust `BloomFilter::get_bit_indecies` from `src/bloomfilter.rs`: digests
reduced modulo `data_len * 8`; the remainder by zero panics (`none`), and with
no hashers the closure never runs, so an empty list is produced even when the
storage is empty. -/
def BloomFilter.get_bit_indecies (f : BloomFilter E) (elmt : E) : Option (List Nat) :=
  let store_len := f.data_len * 8
  f.hashers.mapM fun h => if store_len = 0 then none else some (h elmt % store_len)

/-- Rust `BloomFilter::get_bit_indecies` from `src/lib.rs`: identical except
that the modulus is taken from the storage slice's length (`data.length * 8`)
rather than the `data_len` field. -/
def BloomFilter.get_bit_indecies2 (f : BloomFilter E) (elmt : E) : Option (List Nat) :=
  let store_len := f.data.length * 8
  f.hashers.mapM fun h => if store_len = 0 then none else some (h elmt % store_len)

/-- The probing loop of `never_occured` in `src/bloomfilter.rs`: for each bit
index, if the bit is not set in the storage, return `true`; an out-of-bounds
byte access panics (`none`). -/
def test_bits_loop (store : List Nat) : List Nat → Option Bool
  | [] => some false
  | i :: rest =>
    let p := get_single_bit_mask i
    match store[p.1]? with
    | none => none
    | some b => if b &&& p.2 ≠ p.2 then some true else test_bits_loop store rest

/-- Rust `BloomFilter::never_occured` from `src/bloomfilter.rs`. -/
def BloomFilter.never_occured (f : BloomFilter E) (elmt : E) : Option Bool :=
  (f.get_bit_indecies elmt).bind fun idxs => test_bits_loop f.data idxs

/-- The bit-setting loop of `add` in `src/bloomfilter.rs`: OR each mask into
its byte; an out-of-bounds byte access panics (`none`). -/
def set_bits_loop : List Nat → List Nat → Option (List Nat)
  | store, [] => some store
  | store, i :: rest =>
    let p := get_single_bit_mask i
    match store[p.1]? with
    | none => none
    | some b => set_bits_loop (store.set p.1 (b ||| p.2)) rest

/-- Rust `BloomFilter::add` from `src/bloomfilter.rs`: increments
`elmts_added` and sets every probed bit. -/
def BloomFilter.add (f : BloomFilter E) (elmt : E) : Option (BloomFilter E) :=
  (f.get_bit_indecies elmt).bind fun idxs =>
    (set_bits_loop f.data idxs).map fun d =>
      { f with data := d, elmts_added := f.elmts_added + 1 }

/-- Bytewise OR of a mask buffer into the storage, as performed by the zip
loops of `src/lib.rs`: pairs are formed up to the shorter list, the storage
keeps its remaining bytes. -/
def or_into : List Nat → List Nat → List Nat
  | s, [] => s
  | [], _ => []
  | s :: ss, e :: es => (s ||| e) :: or_into ss es

/-- Rust `BloomFilter::never_occured` from `src/lib.rs`: builds a zeroed
`data_len`-byte mask, sets the probed bits in it, and compares it bytewise
with the storage. -/
def BloomFilter.never_occured2 (f : BloomFilter E) (elmt : E) : Option Bool :=
  (f.get_bit_indecies2 elmt).bind fun idxs =>
    (set_multi_bitmask (List.replicate f.data_len 0) idxs).map fun el_mask =>
      (el_mask.zip f.data).any fun p => p.1 &&& p.2 != p.1

/-- Rust `BloomFilter::add` from `src/lib.rs`: builds the same temporary mask
and ORs it into the storage; note it does not touch `elmts_added`. -/
def BloomFilter.add2 (f : BloomFilter E) (elmt : E) : Option (BloomFilter E) :=
  (f.get_bit_indecies2 elmt).bind fun idxs =>
    (set_multi_bitmask (List.replicate f.data_len 0) idxs).map fun el_mask =>
      { f with data := or_into f.data el_mask }

/-- A sequence of `add` calls (bit-by-bit variant), propagating panics. -/
def add_seq (f : BloomFilter E) (es : List E) : Option (BloomFilter E) :=
  es.foldlM BloomFilter.add f

/-- A sequence of `add` calls (mask-buffer variant), propagating panics. -/
def add2_seq (f : BloomFilter E) (es : List E) : Option (BloomFilter E) :=
  es.foldlM BloomFilter.add2 f

/-- One observable filter operation: an `add` or a `never_occured` query. -/
inductive FOp (E : Type) where
  | addOp (e : E)
  | queryOp (e : E)

/-- Run a list of operations with the `src/bloomfilter.rs` implementations,
collecting the query results.  Queries take `&self` in Rust and therefore
leave the state unchanged. -/
def runA (f : BloomFilter E) : List (FOp E) → Option (BloomFilter E × List Bool)
  | [] => some (f, [])
  | FOp.addOp e :: rest => (f.add e).bind fun g => runA g rest
  | FOp.queryOp e :: rest =>
    (f.never_occured e).bind fun b =>
      (runA f rest).map fun p => (p.1, b :: p.2)

/-- Run a list of operations with the `src/lib.rs` implementations. -/
def runB (f : BloomFilter E) : List (FOp E) → Option (BloomFilter E × List Bool)
  | [] => some (f, [])
  | FOp.addOp e :: rest => (f.add2 e).bind fun g => runB g rest
  | FOp.queryOp e :: rest =>
    (f.never_occured2 e).bind fun b =>
      (runB f rest).map fun p => (p.1, b :: p.2)

/-! ## d-ary min-heap (src/heap.rs) -/

structure MinHeap (T : Type) where
  data : List T
  n : Nat
  order_fn : T → T → Ordering

/-- Rust `MinHeap::new`: empty data, the fan-out is not validated. -/
def MinHeap.new (ordering : T → T → Ordering) (num_children : Nat) : MinHeap T :=
  { data := [], n := num_children, order_fn := ordering }

/-- Rust `MinHeap::len`. -/
def MinHeap.len (h : MinHeap T) : Nat := h.data.length

/-- The sift-up loop of Rust `MinHeap::insert`: while `i > 0`, compute
`parent = (i - 1) / n` (division by zero panics, `none`) and swap upward while
the item compares `Less` than its parent. -/
def sift_up (ord : T → T → Ordering) (n : Nat) (d : List T) (i : Nat) :
    Option (List T) :=
  if hi : i = 0 then some d
  else if hn : n = 0 then none
  else
    let parent := (i - 1) / n
    match d[i]?, d[parent]? with
    | some xi, some xp =>
      if ord xi xp = Ordering.lt then
        sift_up ord n ((d.set i xp).set parent xi) parent
      else some d
    | _, _ => none
termination_by i
decreasing_by
  exact Nat.lt_of_le_of_lt (Nat.div_le_self _ _)
    (Nat.sub_lt (Nat.pos_of_ne_zero hi) Nat.one_pos)

/-- Rust `MinHeap::insert`: push the item at the end, then sift up. -/
def MinHeap.insert (h : MinHeap T) (item : T) : Option (MinHeap T) :=
  (sift_up h.order_fn h.n (h.data ++ [item]) h.data.length).map fun d =>
    { h with data := d }

/-- The child-scanning loop of Rust `MinHeap::heapify`: `mn` starts at `i`;
for each candidate child index `c` with `c < data.len()`, `mn` becomes `c`
when `order_fn(data[mn], data[c]) == Less` (this is the comparison exactly as
written in the source).  Reading `data[mn]` out of bounds panics (`none`). -/
def min_child_loop (ord : T → T → Ordering) (d : List T) :
    Nat → List Nat → Option Nat
  | mn, [] => some mn
  | mn, c :: rest =>
    if c < d.length then
      match d[mn]?, d[c]? with
      | some xm, some xc =>
        if ord xm xc = Ordering.lt then min_child_loop ord d c rest
        else min_child_loop ord d mn rest
      | _, _ => none
    else min_child_loop ord d mn rest

/-- A result of `min_child_loop` is the start index or an in-bounds candidate. -/
theorem min_child_loop_cases (ord : T → T → Ordering) (d : List T) :
    ∀ (cs : List Nat) (mn r : Nat),
      min_child_loop ord d mn cs = some r →
        r = mn ∨ (r ∈ cs ∧ r < d.length) := by
  intro cs
  induction cs with
  | nil => intro mn r h; simp [min_child_loop] at h; exact Or.inl h.symm
  | cons c rest ih =>
    intro mn r h
    simp only [min_child_loop] at h
    split at h
    · split at h
      · split at h
        · rcases ih _ _ h with h1 | ⟨h1, h2⟩
          · subst h1
            exact Or.inr ⟨by simp, by assumption⟩
          · exact Or.inr ⟨List.mem_cons_of_mem _ h1, h2⟩
        · rcases ih _ _ h with h1 | ⟨h1, h2⟩
          · exact Or.inl h1
          · exact Or.inr ⟨List.mem_cons_of_mem _ h1, h2⟩
      · exact absurd h (by simp)
    · rcases ih _ _ h with h1 | ⟨h1, h2⟩
      · exact Or.inl h1
      · exact Or.inr ⟨List.mem_cons_of_mem _ h1, h2⟩

/-- A candidate child index of node `i` is strictly greater than `i`. -/
theorem child_index_gt (i n c : Nat)
    (hc : c ∈ (List.range n).map fun k => i * n + k + 1) : i < c := by
  rcases List.mem_map.mp hc with ⟨k, hk, rfl⟩
  have hn : 1 ≤ n := Nat.one_le_iff_ne_zero.mpr fun h => by
    subst h; exact absurd hk (by simp)
  have : i * 1 ≤ i * n := Nat.mul_le_mul_left i hn
  omega

/-- Rust `MinHeap::heapify` (recursive): scan the up-to-`n` children, and if
the scan selected a child, swap and recurse there. -/
def heapify (ord : T → T → Ordering) (n : Nat) (d : List T) (i : Nat) :
    Option (List T) :=
  match hmc : min_child_loop ord d i ((List.range n).map fun k => i * n + k + 1) with
  | none => none
  | some mn =>
    if hne : mn = i then some d
    else
      match d[i]?, d[mn]? with
      | some xi, some xm => heapify ord n ((d.set i xm).set mn xi) mn
      | _, _ => none
termination_by d.length - i
decreasing_by
  rcases min_child_loop_cases ord d _ i mn hmc with h1 | ⟨h1, h2⟩
  · exact absurd h1 hne
  · have hgt : i < mn := child_index_gt i n mn h1
    simp only [List.length_set]
    omega

/-- Rust `MinHeap::extract`: `None` on empty; otherwise `swap_remove(0)` (the
last element moves to the root) followed by `heapify(0)`.  The outer `Option`
is the panic layer (never hit by `extract`), the inner `Option T` is the
Rust return value. -/
def MinHeap.extract (h : MinHeap T) : Option (Option T × MinHeap T) :=
  match h.data with
  | [] => some (none, h)
  | x :: rest =>
    let d := match rest.getLast? with
      | none => ([] : List T)
      | some l => l :: rest.dropLast
    (heapify h.order_fn h.n d 0).map fun d2 => (some x, { h with data := d2 })

/-- A sequence of inserts, propagating panics. -/
def insert_all (h : MinHeap T) (xs : List T) : Option (MinHeap T) :=
  xs.foldlM MinHeap.insert h

/-- Repeated extraction: perform `k` `extract` calls, collecting the returned
values (the `Option T` results) and the final heap. -/
def extracts : MinHeap T → Nat → Option (List (Option T) × MinHeap T)
  | h, 0 => some ([], h)
  | h, k + 1 =>
    h.extract.bind fun p =>
      (extracts p.2 k).map fun q => (p.1 :: q.1, q.2)

/-- The standard integer comparator used by the repository's heap test. -/
def natCmp : Nat → Nat → Ordering := fun a b => compare a b

/-- The min-heap property as stated by the spec: for every index `i > 0` with
parent `p = (i - 1) / fan_out`, the parent is not ordered `Greater` than the
child. -/
def heap_prop (ord : T → T → Ordering) (n : Nat) (d : List T) : Prop :=
  ∀ i, (hi : i < d.length) → 0 < i →
    ord (d.get ⟨(i - 1) / n,
          Nat.lt_of_le_of_lt
            (Nat.le_trans (Nat.div_le_self _ _) (Nat.sub_le _ _)) hi⟩)
        (d.get ⟨i, hi⟩) ≠ Ordering.gt

instance heap_prop_dec (ord : T → T → Ordering) (n : Nat) (d : List T) :
    Decidable (heap_prop ord n d) := by
  unfold heap_prop; infer_instance

/-! ### Unfolding lemmas for the two well-founded recursions -/

/-- At the root, the sift-up loop does not run. -/
theorem sift_up_base (ord : T → T → Ordering) (n : Nat) (d : List T) :
    sift_up ord n d 0 = some d := by
  rw [sift_up]; simp

/-- A sift-up from a positive index with fan-out 0 panics: `(i - 1) / 0`. -/
theorem sift_up_panic (ord : T → T → Ordering) (d : List T) (i : Nat)
    (hi : i ≠ 0) : sift_up ord 0 d i = none := by
  rw [sift_up, dif_neg hi]; simp

/-- One iteration of the sift-up loop when both reads are in bounds. -/
theorem sift_up_go (ord : T → T → Ordering) (n : Nat) (d : List T)
    (i : Nat) (hi : i ≠ 0) (hn : n ≠ 0) (xi xp : T)
    (h1 : d[i]? = some xi) (h2 : d[(i - 1) / n]? = some xp) :
    sift_up ord n d i =
      if ord xi xp = Ordering.lt then
        sift_up ord n ((d.set i xp).set ((i - 1) / n) xi) ((i - 1) / n)
      else some d := by
  rw [sift_up, dif_neg hi, dif_neg hn]
  simp only [h1, h2]

/-- When the child scan comes back with the node itself, `heapify` stops. -/
theorem heapify_stop (ord : T → T → Ordering) (n : Nat) (d : List T) (i : Nat)
    (h : min_child_loop ord d i ((List.range n).map fun k => i * n + k + 1) =
      some i) :
    heapify ord n d i = some d := by
  rw [heapify]
  split
  next heq => rw [heq] at h; exact absurd h (by simp)
  next mn heq =>
    rw [heq] at h
    have : mn = i := by injection h
    simp [this]

/-- When the child scan selects another index, `heapify` swaps and recurses. -/
theorem heapify_go (ord : T → T → Ordering) (n : Nat) (d : List T)
    (i mn : Nat) (xi xm : T)
    (hmc : min_child_loop ord d i ((List.range n).map fun k => i * n + k + 1) =
      some mn)
    (hne : mn ≠ i) (h1 : d[i]? = some xi) (h2 : d[mn]? = some xm) :
    heapify ord n d i = heapify ord n ((d.set i xm).set mn xi) mn := by
  rw [heapify]
  split
  next heq => rw [heq] at hmc; exact absurd hmc (by simp)
  next mn2 heq =>
    rw [heq] at hmc
    have hmn : mn2 = mn := by injection hmc
    subst hmn
    rw [dif_neg hne]
    simp only [h1, h2]

/-! ### Concrete heap computations shared by the heap claims -/

/-- Inserting `11, 5, 7` into the empty fan-out-4 heap yields data
`[5, 11, 7]` (11 sifts below 5; 7 stays at index 2 with parent 5). -/
theorem run_insert_11_5_7 :
    insert_all (MinHeap.new natCmp 4) [11, 5, 7] =
      some ⟨[5, 11, 7], 4, natCmp⟩ := by
  have i1 : (MinHeap.new natCmp 4).insert 11 = some ⟨[11], 4, natCmp⟩ := by
    show (sift_up natCmp 4 [11] 0).map _ = _
    rw [sift_up_base]; rfl
  have i2 : MinHeap.insert ⟨[11], 4, natCmp⟩ 5 = some ⟨[5, 11], 4, natCmp⟩ := by
    show (sift_up natCmp 4 [11, 5] 1).map _ = _
    rw [sift_up_go natCmp 4 [11, 5] 1 (by decide) (by decide) 5 11
      (by decide) (by decide)]
    rw [if_pos (by decide : natCmp 5 11 = Ordering.lt)]
    show (sift_up natCmp 4 [5, 11] 0).map _ = _
    rw [sift_up_base]; rfl
  have i3 : MinHeap.insert ⟨[5, 11], 4, natCmp⟩ 7 =
      some ⟨[5, 11, 7], 4, natCmp⟩ := by
    show (sift_up natCmp 4 [5, 11, 7] 2).map _ = _
    rw [sift_up_go natCmp 4 [5, 11, 7] 2 (by decide) (by decide) 7 5
      (by decide) (by decide)]
    rw [if_neg (by decide : ¬ natCmp 7 5 = Ordering.lt)]
    rfl
  simp only [insert_all, List.foldlM_cons, List.foldlM_nil, i1, i2, i3,
    Option.bind_eq_bind, Option.some_bind, Option.pure_def]

/-- After removing the root of `[5, 11, 7]`, heapify on `[7, 11]` swaps the
larger child upward (the inverted comparison): result `[11, 7]`. -/
theorem run_heapify_7_11 : heapify natCmp 4 [7, 11] 0 = some [11, 7] := by
  rw [heapify_go natCmp 4 [7, 11] 0 1 7 11 (by decide) (by decide)
    (by decide) (by decide)]
  show heapify natCmp 4 [11, 7] 1 = _
  exact heapify_stop natCmp 4 [11, 7] 1 (by decide)

/-- First extract from `[5, 11, 7]`: returns 5, leaves `[11, 7]`. -/
theorem run_extract_1 :
    MinHeap.extract ⟨[5, 11, 7], 4, natCmp⟩ =
      some (some 5, ⟨[11, 7], 4, natCmp⟩) := by
  show (heapify natCmp 4 [7, 11] 0).map _ = _
  rw [run_heapify_7_11]; rfl

/-- Second extract, from `[11, 7]`: returns 11 (not 7), leaves `[7]`. -/
theorem run_extract_2 :
    MinHeap.extract ⟨[11, 7], 4, natCmp⟩ = some (some 11, ⟨[7], 4, natCmp⟩) := by
  show (heapify natCmp 4 [7] 0).map _ = _
  rw [heapify_stop natCmp 4 [7] 0 (by decide)]; rfl

/-- Third extract, from `[7]`: returns 7, leaves the empty heap. -/
theorem run_extract_3 :
    MinHeap.extract ⟨[7], 4, natCmp⟩ = some (some 7, ⟨[], 4, natCmp⟩) := by
  show (heapify natCmp 4 [] 0).map _ = _
  rw [heapify_stop natCmp 4 [] 0 (by decide)]; rfl

/-- Fourth extract, from the empty heap: the empty signal. -/
theorem run_extract_4 :
    MinHeap.extract (⟨[], 4, natCmp⟩ : MinHeap Nat) =
      some (none, ⟨[], 4, natCmp⟩) := rfl

/-! ## Heap claims

The repository's own test `heap_test_basic` asserts the extract sequence
`5, 7, 11` for inserts `11, 5, 7` with fan-out 4, but `heapify` selects a
child when the parent compares `Less` than it (the comparison is inverted),
so the code extracts `5, 11, 7` and the test fails: the heap claims taken
from the spec are what the code intends but not what it does. -/

/-- C1 (code evaluated at the failing input): with the integer comparator and
fan-out 4, inserting `11, 5, 7` and extracting until empty yields the value
sequence `5, 11, 7`, which is not non-decreasing under the comparator, so the
claimed heap ordering law fails on the code. -/
theorem c1_extract_sequence_not_sorted :
    ((insert_all (MinHeap.new natCmp 4) [11, 5, 7]).bind fun h =>
      (extracts h 3).map fun q => q.1) = some [some 5, some 11, some 7] ∧
    ¬ List.Chain' (fun a b : Nat => natCmp a b ≠ Ordering.gt) [5, 11, 7] := by
  constructor
  · rw [run_insert_11_5_7]
    simp only [Option.bind_eq_bind, Option.some_bind, extracts, run_extract_1,
      run_extract_2, run_extract_3, Option.map_some, Option.some_bind]
    rfl
  · intro hch
    obtain ⟨h1, hch2⟩ := List.chain'_cons.mp hch
    obtain ⟨h2, h3⟩ := List.chain'_cons.mp hch2
    exact h2 (by decide)

/-- C2 (code evaluated at the failing input): the spec's concrete scenario.
After inserting `11, 5, 7` into a fan-out-4 heap, `len` is 3, but the four
extract calls return `5, 11, 7`, empty signal (not `5, 7, 11` as claimed);
the final `len` is 0. -/
theorem c2_heap_scenario_run :
    ((insert_all (MinHeap.new natCmp 4) [11, 5, 7]).bind fun h =>
      (extracts h 4).map fun q => (h.len, q.1, q.2.len)) =
      some (3, [some 5, some 11, some 7, none], 0) := by
  rw [run_insert_11_5_7]
  simp only [Option.bind_eq_bind, Option.some_bind, extracts, run_extract_1,
    run_extract_2, run_extract_3, run_extract_4, Option.map_some,
    Option.some_bind]
  rfl

/-- C3 (code evaluated at the failing input): the state `[1, 2, 3]` with
fan-out 4 satisfies the min-heap property, but a single `extract` leaves the
state `[3, 2]`, whose root is ordered `Greater` than its child: `extract`
does not preserve the invariant. -/
theorem c3_extract_breaks_invariant :
    heap_prop natCmp 4 [1, 2, 3] ∧
    (MinHeap.extract ⟨[1, 2, 3], 4, natCmp⟩).map (fun p => (p.1, p.2.data)) =
      some (some 1, [3, 2]) ∧
    ¬ heap_prop natCmp 4 [3, 2] := by
  refine ⟨by decide, ?_, by decide⟩
  have he : MinHeap.extract ⟨[1, 2, 3], 4, natCmp⟩ =
      some (some 1, ⟨[3, 2], 4, natCmp⟩) := by
    show (heapify natCmp 4 [3, 2] 0).map _ = _
    rw [heapify_stop natCmp 4 [3, 2] 0 (by decide)]; rfl
  rw [he]; rfl

/-- C7: `extract` on a heap with `len() == 0` returns the empty signal, does
not fail, and leaves the heap unchanged (hence `len()` remains 0). -/
theorem c7_extract_empty (h : MinHeap T) (hl : h.len = 0) :
    h.extract = some (none, h) := by
  cases h with
  | mk d n f =>
    simp only [MinHeap.len] at hl
    obtain rfl := List.length_eq_zero.mp hl
    rfl

/-- Witness for C7 at a concrete empty heap. -/
theorem c7_extract_empty_witness :
    (MinHeap.new natCmp 4).extract = some (none, MinHeap.new natCmp 4) :=
  c7_extract_empty (MinHeap.new natCmp 4) rfl

/-! ## Claim C6: zero-sized configurations are not rejected -/

/-- C6 counterexample: the claim that zero-sized configurations are rejected
at construction fails on the code.  A filter built over an empty buffer is
returned as an ordinary structure (no configuration error exists in the API)
and its `add` then panics with a remainder-by-zero; a filter with zero hash
functions is likewise constructed; `MinHeap::new` accepts fan-out 0 and the
second `insert` then panics with a division by zero. -/
theorem c6_counterexample :
    (BloomFilter.from_initalized ([] : List Nat) [fun n : Nat => n]).storage_size
      = 0 ∧
    ((BloomFilter.from_initalized ([] : List Nat) [fun n : Nat => n]).add 0).isSome
      = false ∧
    (BloomFilter.default_with_settings 2 ([] : List (Nat → Nat))).num_hashers
      = 0 ∧
    (MinHeap.new natCmp 0).n = 0 ∧
    (((MinHeap.new natCmp 0).insert 5).bind fun h2 => h2.insert 3).isSome
      = false := by
  refine ⟨rfl, rfl, rfl, rfl, ?_⟩
  have h1 : (MinHeap.new natCmp 0).insert 5 = some ⟨[5], 0, natCmp⟩ := by
    show (sift_up natCmp 0 [5] 0).map _ = _
    rw [sift_up_base]; rfl
  have h2 : MinHeap.insert ⟨[5], 0, natCmp⟩ 3 = none := by
    show (sift_up natCmp 0 [5, 3] 1).map _ = _
    rw [sift_up_panic natCmp [5, 3] 1 (by decide)]; rfl
  rw [h1, Option.some_bind, h2]; rfl

/-- C6 amended: construction does not validate its parameters.  A filter over
an empty buffer (with at least one hasher) is constructed normally and every
later `add` or `never_occured` panics via remainder-by-zero; a heap with
fan-out 0 is constructed normally, a first `insert` succeeds, and any second
`insert` panics via division by zero. -/
theorem c6_no_construction_rejection (h0 : E → Nat) (hs : List (E → Nat))
    (e : E) (cmp : T → T → Ordering) (x y : T) :
    (BloomFilter.from_initalized [] (h0 :: hs)).add e = none ∧
    (BloomFilter.from_initalized [] (h0 :: hs)).never_occured e = none ∧
    (MinHeap.new cmp 0).insert x = some ⟨[x], 0, cmp⟩ ∧
    (((MinHeap.new cmp 0).insert x).bind fun h2 => h2.insert y) = none := by
  refine ⟨?_, ?_, ?_, ?_⟩
  · simp [BloomFilter.from_initalized, BloomFilter.add, BloomFilter.get_bit_indecies,
      List.mapM, List.mapM.loop]
  · simp [BloomFilter.from_initalized, BloomFilter.never_occured,
      BloomFilter.get_bit_indecies, List.mapM, List.mapM.loop]
  · show (sift_up cmp 0 [x] 0).map _ = _
    rw [sift_up_base]; rfl
  · have h1 : (MinHeap.new cmp 0).insert x = some ⟨[x], 0, cmp⟩ := by
      show (sift_up cmp 0 [x] 0).map _ = _
      rw [sift_up_base]; rfl
    have h2 : MinHeap.insert ⟨[x], 0, cmp⟩ y = none := by
      show (sift_up cmp 0 [x, y] 1).map _ = _
      rw [sift_up_panic cmp [x, y] 1 (by decide)]; rfl
    rw [h1, Option.some_bind, h2]

/-! ## Bitwise groundwork for the filter claims -/

/-- The source's byte index and mask in closed form. -/
theorem get_single_bit_mask_eq (idx : Nat) :
    get_single_bit_mask idx = (idx / 8, 128 >>> (idx % 8)) := by
  have h : idx - idx / 8 * 8 = idx % 8 := by omega
  simp [get_single_bit_mask, h]

/-- Containment of bit patterns, expressed through `testBit`. -/
theorem and_eq_left_iff (x y : Nat) :
    x &&& y = x ↔ ∀ j, x.testBit j = true → y.testBit j = true := by
  constructor
  · intro h j hj
    have h2 := congrArg (fun z => z.testBit j) h
    simp only [Nat.testBit_and] at h2
    rw [hj] at h2
    simpa using h2
  · intro h
    apply Nat.eq_of_testBit_eq
    intro j
    simp only [Nat.testBit_and]
    cases hx : x.testBit j with
    | false => simp
    | true => simp [h j hx]

/-- An OR is contained in a pattern iff both arguments are. -/
theorem or_sub_iff (a b c : Nat) :
    (a ||| b) &&& c = a ||| b ↔ (a &&& c = a ∧ b &&& c = b) := by
  simp only [and_eq_left_iff, Nat.testBit_or]
  constructor
  · intro h
    exact ⟨fun j hj => h j (by simp [hj]), fun j hj => h j (by simp [hj])⟩
  · rintro ⟨h1, h2⟩ j hj
    rcases (Bool.or_eq_true _ _).mp hj with hh | hh
    · exact h1 j hh
    · exact h2 j hh

/-- After OR-ing a mask into a byte, the mask's bits test as set. -/
theorem mask_in_or (b m : Nat) : (b ||| m) &&& m = m := by
  rw [Nat.and_comm]
  exact (and_eq_left_iff m (b ||| m)).mpr fun j hj => by
    simp [Nat.testBit_or, hj]

/-- A set mask stays set when more bits are OR-ed into the byte. -/
theorem mask_stays (a x m : Nat) (h : a &&& m = m) : (a ||| x) &&& m = m := by
  rw [Nat.and_comm] at h ⊢
  rw [and_eq_left_iff] at h ⊢
  intro j hj
  simp [Nat.testBit_or, h j hj]

/-- The byte-OR of a list contains the mask of each of its members that fall
in the queried byte. -/
theorem byte_or_mem (idxs : List Nat) (i : Nat) (h : i ∈ idxs) :
    byte_or idxs (i / 8) &&& (128 >>> (i % 8)) = 128 >>> (i % 8) := by
  induction idxs with
  | nil => simp at h
  | cons a rest ih =>
    rcases List.mem_cons.mp h with rfl | h2
    · simp only [byte_or, if_pos rfl]
      rw [Nat.or_comm]
      exact mask_in_or _ _
    · simp only [byte_or]
      rw [Nat.or_comm]
      exact mask_stays _ _ _ (ih h2)

/-- Containment in a byte-OR, member by member. -/
theorem byte_or_sub_iff (c : Nat) (idxs : List Nat) (n : Nat) :
    byte_or idxs n &&& c = byte_or idxs n ↔
      ∀ i ∈ idxs, i / 8 = n → c &&& (128 >>> (i % 8)) = 128 >>> (i % 8) := by
  induction idxs with
  | nil => simp [byte_or, Nat.zero_and]
  | cons a rest ih =>
    simp only [byte_or]
    rw [or_sub_iff]
    constructor
    · rintro ⟨h1, h2⟩ i hi hin
      rcases List.mem_cons.mp hi with rfl | hmem
      · rw [if_pos hin] at h1
        rw [Nat.and_comm]
        exact h1
      · exact (ih.mp h2) i hmem hin
    · intro h
      refine ⟨?_, ih.mpr fun i hi hin => h i (List.mem_cons_of_mem _ hi) hin⟩
      by_cases hin : a / 8 = n
      · rw [if_pos hin, Nat.and_comm]
        exact h a (by simp) hin
      · rw [if_neg hin]
        exact Nat.zero_and c

/-- `List.getD` after `List.set` at the written position. -/
theorem getD_set_self (l : List Nat) (n v : Nat) (h : n < l.length) :
    (l.set n v).getD n 0 = v := by
  rw [List.getD_eq_getElem?_getD, List.getElem?_set_self h]
  rfl

/-- `List.getD` after `List.set` away from the written position. -/
theorem getD_set_ne (l : List Nat) (n m v : Nat) (h : n ≠ m) :
    (l.set n v).getD m 0 = l.getD m 0 := by
  rw [List.getD_eq_getElem?_getD, List.getElem?_set_ne h,
    ← List.getD_eq_getElem?_getD]

/-- A bit index below the bit capacity addresses a byte inside the buffer. -/
theorem div8_lt (i L : Nat) (h : i < L * 8) : i / 8 < L :=
  (Nat.div_lt_iff_lt_mul (by norm_num)).mpr h

/-- `getD` on a zeroed buffer is zero. -/
theorem getD_replicate_zero (k n : Nat) :
    (List.replicate k (0 : Nat)).getD n 0 = 0 := by
  rw [List.getD_eq_getElem?_getD, List.getElem?_replicate]
  by_cases h : n < k <;> simp [h]

/-- Two byte buffers of the same length with the same `getD` views are equal. -/
theorem list_eq_of_getD : ∀ (a b : List Nat), a.length = b.length →
    (∀ n, a.getD n 0 = b.getD n 0) → a = b
  | [], [], _, _ => rfl
  | [], _ :: _, h, _ => by simp at h
  | _ :: _, [], h, _ => by simp at h
  | x :: xs, y :: ys, h, hg => by
    have h0 : x = y := by have h1 := hg 0; simpa [List.getD] using h1
    have ht : xs = ys := list_eq_of_getD xs ys (by simpa using h) fun n => hg (n + 1)
    simp [h0, ht]

/-! ### Characterizations of the storage-writing and probing loops -/

/-- `set_multi_bitmask` never changes the buffer length. -/
theorem set_multi_length : ∀ (idxs mask m : List Nat),
    set_multi_bitmask mask idxs = some m → m.length = mask.length := by
  intro idxs
  induction idxs with
  | nil => intro mask m h; simp [set_multi_bitmask] at h; simp [h.symm]
  | cons i rest ih =>
    intro mask m h
    simp only [set_multi_bitmask] at h
    split at h
    · have := ih _ _ h
      simpa [List.length_set] using this
    · exact absurd h (by simp)

/-- What `set_multi_bitmask` computes, byte by byte: every listed bit is
OR-ed into its byte.  Needs every byte index in bounds (otherwise the
source asserts). -/
theorem set_multi_char : ∀ (idxs mask : List Nat),
    (∀ i ∈ idxs, i / 8 < mask.length) →
    ∃ m, set_multi_bitmask mask idxs = some m ∧ m.length = mask.length ∧
      ∀ n, m.getD n 0 = mask.getD n 0 ||| byte_or idxs n := by
  intro idxs
  induction idxs with
  | nil =>
    intro mask _
    exact ⟨mask, rfl, rfl, fun n => by simp [byte_or]⟩
  | cons i rest ih =>
    intro mask h
    have hlt : i / 8 < mask.length := h i (by simp)
    obtain ⟨m, hm, hlen, hchar⟩ :=
      ih (mask.set (i / 8) (mask.getD (i / 8) 0 ||| (128 >>> (i % 8))))
        (by
          intro j hj
          rw [List.length_set]
          exact h j (List.mem_cons_of_mem _ hj))
    refine ⟨m, ?_, by rw [hlen, List.length_set], ?_⟩
    · simp only [set_multi_bitmask, get_single_bit_mask_eq]
      rw [if_pos hlt]
      exact hm
    · intro n
      rw [hchar n]
      by_cases hn : n = i / 8
      · subst hn
        rw [getD_set_self _ _ _ hlt]
        simp only [byte_or, if_pos rfl]
        rw [Nat.or_assoc]
        simp
      · rw [getD_set_ne _ _ _ _ fun hh => hn hh.symm]
        simp only [byte_or]
        rw [if_neg fun hh => hn hh.symm, Nat.zero_or]

/-- The bit-by-bit writing loop of `src/bloomfilter.rs` computes exactly
`set_multi_bitmask` (the panic conditions also agree). -/
theorem set_bits_loop_eq : ∀ (idxs store : List Nat),
    set_bits_loop store idxs = set_multi_bitmask store idxs := by
  intro idxs
  induction idxs with
  | nil => intro store; rfl
  | cons i rest ih =>
    intro store
    simp only [set_bits_loop, set_multi_bitmask]
    by_cases h : (get_single_bit_mask i).1 < store.length
    · have hg : store[(get_single_bit_mask i).1]? =
          some (store.getD (get_single_bit_mask i).1 0) := by
        rw [List.getElem?_eq_getElem h, List.getD_eq_getElem?_getD,
          List.getElem?_eq_getElem h]
        rfl
      rw [hg, if_pos h]
      exact ih _
    · have hg : store[(get_single_bit_mask i).1]? = none :=
        List.getElem?_eq_none (Nat.le_of_not_lt h)
      rw [hg, if_neg h]

/-- `or_into` keeps the storage length. -/
theorem or_into_length : ∀ (s e : List Nat), (or_into s e).length = s.length
  | _, [] => by
    cases ‹List Nat› <;> rfl
  | [], _ :: _ => rfl
  | a :: ss, b :: es => by
    simp only [or_into, List.length_cons, or_into_length ss es]

/-- `or_into` of same-length buffers, byte by byte. -/
theorem or_into_getD : ∀ (s e : List Nat), e.length = s.length →
    ∀ n, (or_into s e).getD n 0 = s.getD n 0 ||| e.getD n 0
  | [], [], _, n => by simp [or_into, List.getD]
  | [], _ :: _, h, _ => by simp at h
  | _ :: _, [], h, _ => by simp at h
  | a :: ss, b :: es, h, n => by
    match n with
    | 0 => rfl
    | n + 1 =>
      show (or_into ss es).getD n 0 = _
      exact or_into_getD ss es (by simpa using h) n

/-- Every bit index produced by the digest map is below the modulus. -/
theorem mapM_digest_bound (L0 : Nat) (e : E) :
    ∀ (hs : List (E → Nat)) (idxs : List Nat),
      (hs.mapM fun h2 => if L0 = 0 then none else some (h2 e % L0)) = some idxs →
      ∀ i ∈ idxs, i < L0 := by
  intro hs
  induction hs with
  | nil =>
    intro idxs h i hi
    simp only [List.mapM_nil, Option.pure_def, Option.some.injEq] at h
    rw [← h] at hi
    simp at hi
  | cons h0 hrest ih =>
    intro idxs h i hi
    rw [List.mapM_cons] at h
    by_cases hL : L0 = 0
    · simp [hL] at h
    · cases hm : hrest.mapM fun h2 => if L0 = 0 then none else some (h2 e % L0) with
      | none =>
        rw [hm] at h
        simp [hL] at h
      | some rest2 =>
        rw [hm] at h
        simp only [if_neg hL, Option.pure_def, Option.bind_eq_bind,
          Option.some_bind, Option.some.injEq] at h
        rw [← h] at hi
        rcases List.mem_cons.mp hi with rfl | hmem
        · exact Nat.mod_lt _ (Nat.pos_of_ne_zero hL)
        · exact ih rest2 hm i hmem

/-- The probing loop of `src/bloomfilter.rs` returns `true` exactly when some
probed bit is unset, provided every byte index is in bounds. -/
theorem test_bits_loop_char (store : List Nat) :
    ∀ (idxs : List Nat), (∀ i ∈ idxs, i / 8 < store.length) →
      test_bits_loop store idxs =
        some (decide (∃ i ∈ idxs,
          ¬ store.getD (i / 8) 0 &&& (128 >>> (i % 8)) = 128 >>> (i % 8))) := by
  intro idxs
  induction idxs with
  | nil => intro _; simp [test_bits_loop]
  | cons i rest ih =>
    intro h
    have hlt : i / 8 < store.length := h i (by simp)
    have hg : store[i / 8]? = some (store.getD (i / 8) 0) := by
      rw [List.getElem?_eq_getElem hlt, List.getD_eq_getElem?_getD,
        List.getElem?_eq_getElem hlt]
      rfl
    simp only [test_bits_loop, get_single_bit_mask_eq, hg]
    by_cases hb : store.getD (i / 8) 0 &&& (128 >>> (i % 8)) = 128 >>> (i % 8)
    · rw [if_neg (by simpa using hb)]
      rw [ih fun j hj => h j (List.mem_cons_of_mem _ hj)]
      congr 1
      rw [decide_eq_decide]
      constructor
      · rintro ⟨j, hj, hjb⟩
        exact ⟨j, List.mem_cons_of_mem _ hj, hjb⟩
      · rintro ⟨j, hj, hjb⟩
        rcases List.mem_cons.mp hj with rfl | hmem
        · exact absurd hb hjb
        · exact ⟨j, hmem, hjb⟩
    · rw [if_pos (by simpa using hb)]
      congr 1
      symm
      rw [decide_eq_true_eq]
      exact ⟨i, by simp, hb⟩

/-- The bytewise probing loop of `src/lib.rs` (`zip` + early return) returns
`true` exactly when some byte of the element mask is not contained in the
corresponding storage byte. -/
theorem zip_any_char : ∀ (el store : List Nat), el.length = store.length →
    ((el.zip store).any fun p => p.1 &&& p.2 != p.1) =
      decide (∃ n, n < store.length ∧
        ¬ el.getD n 0 &&& store.getD n 0 = el.getD n 0)
  | [], [], _ => by simp
  | [], _ :: _, h => by simp at h
  | _ :: _, [], h => by simp at h
  | a :: el, b :: store, h => by
    have ih := zip_any_char el store (by simpa using h)
    simp only [List.zip_cons_cons, List.any_cons, ih]
    by_cases hab : a &&& b = a
    · have hfalse : (a &&& b != a) = false := by simp [hab]
      rw [hfalse, Bool.false_or]
      rw [decide_eq_decide]
      constructor
      · rintro ⟨n, hn, hne⟩
        exact ⟨n + 1, by simpa using hn, hne⟩
      · rintro ⟨n, hn, hne⟩
        match n with
        | 0 => exact absurd hab (by simpa [List.getD] using hne)
        | n + 1 =>
          exact ⟨n, by simpa using hn, by simpa [List.getD] using hne⟩
    · have htrue : (a &&& b != a) = true := by simp [hab]
      rw [htrue, Bool.true_or]
      symm
      rw [decide_eq_true_eq]
      exact ⟨0, by simp, by simpa [List.getD] using hab⟩

/-! ### Frame and monotonicity lemmas for `add` -/

/-- `add_seq` unfolded on nil. -/
theorem add_seq_nil (f : BloomFilter E) : add_seq f [] = some f := rfl

/-- `add_seq` unfolded on cons. -/
theorem add_seq_cons (f : BloomFilter E) (e : E) (rest : List E) :
    add_seq f (e :: rest) = (f.add e).bind fun f2 => add_seq f2 rest := by
  simp [add_seq, List.foldlM_cons, Option.bind_eq_bind]

/-- `add_seq` over an append runs the two halves in order. -/
theorem add_seq_append (f : BloomFilter E) (l l2 : List E) :
    add_seq f (l ++ l2) = (add_seq f l).bind fun f2 => add_seq f2 l2 := by
  simp [add_seq, List.foldlM_append, Option.bind_eq_bind]

/-- Anatomy of a successful `add` (bit-by-bit variant). -/
theorem add_cases (f : BloomFilter E) (e : E) (g : BloomFilter E)
    (h : f.add e = some g) :
    ∃ idxs d, f.get_bit_indecies e = some idxs ∧
      set_bits_loop f.data idxs = some d ∧
      g = { f with data := d, elmts_added := f.elmts_added + 1 } := by
  unfold BloomFilter.add at h
  cases hidx : f.get_bit_indecies e with
  | none => rw [hidx] at h; simp at h
  | some idxs =>
    rw [hidx, Option.some_bind] at h
    cases hset : set_bits_loop f.data idxs with
    | none => rw [hset] at h; simp at h
    | some d =>
      rw [hset] at h
      simp only [Option.map_some', Option.some.injEq] at h
      exact ⟨idxs, d, rfl, hset, h.symm⟩

/-- Anatomy of a successful `add` (mask-buffer variant); note the
elements-added counter is untouched. -/
theorem add2_cases (f : BloomFilter E) (e : E) (g : BloomFilter E)
    (h : f.add2 e = some g) :
    ∃ idxs el, f.get_bit_indecies2 e = some idxs ∧
      set_multi_bitmask (List.replicate f.data_len 0) idxs = some el ∧
      g = { f with data := or_into f.data el } := by
  unfold BloomFilter.add2 at h
  cases hidx : f.get_bit_indecies2 e with
  | none => rw [hidx] at h; simp at h
  | some idxs =>
    rw [hidx, Option.some_bind] at h
    cases hset : set_multi_bitmask (List.replicate f.data_len 0) idxs with
    | none => rw [hset] at h; simp at h
    | some el =>
      rw [hset] at h
      simp only [Option.map_some', Option.some.injEq] at h
      exact ⟨idxs, el, rfl, hset, h.symm⟩

/-- The probed bit indices depend only on `data_len` and the hashers. -/
theorem get_bit_indecies_congr (f g : BloomFilter E) (e : E)
    (hl : f.data_len = g.data_len) (hh : f.hashers = g.hashers) :
    f.get_bit_indecies e = g.get_bit_indecies e := by
  unfold BloomFilter.get_bit_indecies
  rw [hl, hh]

/-- Indices coming out of `get_bit_indecies` are below the bit capacity. -/
theorem get_bit_indecies_bound (f : BloomFilter E) (e : E) (idxs : List Nat)
    (h : f.get_bit_indecies e = some idxs) : ∀ i ∈ idxs, i < f.data_len * 8 :=
  mapM_digest_bound (f.data_len * 8) e f.hashers idxs h

/-- Full characterization of a successful `add` on a well-formed filter:
the frame (only `data` and the counter change) and the new bytes. -/
theorem add_char (f g : BloomFilter E) (e : E) (idxs : List Nat)
    (hWF : f.data.length = f.data_len)
    (hidx : f.get_bit_indecies e = some idxs)
    (h : f.add e = some g) :
    g.data_len = f.data_len ∧ g.hashers = f.hashers ∧
    g.elmts_added = f.elmts_added + 1 ∧ g.data.length = f.data.length ∧
    ∀ n, g.data.getD n 0 = f.data.getD n 0 ||| byte_or idxs n := by
  obtain ⟨idxs2, d, hidx2, hset, rfl⟩ := add_cases f e g h
  rw [hidx] at hidx2
  obtain rfl : idxs = idxs2 := by injection hidx2
  have hbound : ∀ i ∈ idxs, i / 8 < f.data.length := by
    intro i hi
    rw [hWF]
    exact div8_lt _ _ (get_bit_indecies_bound f e idxs hidx i hi)
  obtain ⟨m, hm, hlen, hchar⟩ := set_multi_char idxs f.data hbound
  rw [set_bits_loop_eq, hm] at hset
  obtain rfl : m = d := by injection hset
  exact ⟨rfl, rfl, rfl, hlen, hchar⟩

/-- Along a successful `add` sequence, `data_len`, the hashers, the storage
length, and every already-set mask are preserved. -/
theorem add_seq_preserved : ∀ (es : List E) (f g : BloomFilter E),
    add_seq f es = some g → f.data.length = f.data_len →
    g.data_len = f.data_len ∧ g.hashers = f.hashers ∧
    g.data.length = f.data.length ∧
    ∀ n m2, f.data.getD n 0 &&& m2 = m2 → g.data.getD n 0 &&& m2 = m2 := by
  intro es
  induction es with
  | nil =>
    intro f g h _
    rw [add_seq_nil] at h
    obtain rfl : f = g := by injection h
    exact ⟨rfl, rfl, rfl, fun n m2 hm => hm⟩
  | cons e rest ih =>
    intro f g h hWF
    rw [add_seq_cons] at h
    cases ha : f.add e with
    | none => rw [ha] at h; simp at h
    | some f2 =>
      rw [ha, Option.some_bind] at h
      obtain ⟨idxs, d, hidx, hset, hf2⟩ := add_cases f e f2 ha
      obtain ⟨a1, a2, a3, a4, achar⟩ := add_char f f2 e idxs hWF hidx ha
      have hWF2 : f2.data.length = f2.data_len := by rw [a4, hWF, a1]
      obtain ⟨g1, g2, g3, g4⟩ := ih f2 g h hWF2
      refine ⟨g1.trans a1, g2.trans a2, g3.trans a4, ?_⟩
      intro n m2 hm
      apply g4
      rw [achar n]
      exact mask_stays _ _ _ hm

/-- If all probed bits are set, `never_occured` answers `false`. -/
theorem never_occured_all_set (f : BloomFilter E) (e : E) (idxs : List Nat)
    (hWF : f.data.length = f.data_len)
    (hidx : f.get_bit_indecies e = some idxs)
    (hset : ∀ i ∈ idxs,
      f.data.getD (i / 8) 0 &&& (128 >>> (i % 8)) = 128 >>> (i % 8)) :
    f.never_occured e = some false := by
  have hbound : ∀ i ∈ idxs, i / 8 < f.data.length := by
    intro i hi
    rw [hWF]
    exact div8_lt _ _ (get_bit_indecies_bound f e idxs hidx i hi)
  unfold BloomFilter.never_occured
  rw [hidx, Option.some_bind, test_bits_loop_char f.data idxs hbound]
  congr 1
  rw [decide_eq_false_iff_not]
  rintro ⟨i, hi, hne⟩
  exact hne (hset i hi)

/-! ## Claim C4 -/

/-- C4: for every filter built from a non-empty buffer (hash functions are
modelled as deterministic digest functions), any adds, then `add x`, then any
further adds: `never_occured x` answers `some false` (no false negatives). -/
theorem c4_never_occured_false_after_add (store : List Nat)
    (hs : List (E → Nat)) (x : E) (pre post : List E) (g : BloomFilter E)
    (hstore : store ≠ [])
    (hrun : add_seq (BloomFilter.from_initalized store hs) (pre ++ x :: post) =
      some g) :
    g.never_occured x = some false := by
  rw [add_seq_append] at hrun
  cases h1 : add_seq (BloomFilter.from_initalized store hs) pre with
  | none => rw [h1] at hrun; simp at hrun
  | some f1 =>
    rw [h1, Option.some_bind, add_seq_cons] at hrun
    cases h2 : f1.add x with
    | none => rw [h2] at hrun; simp at hrun
    | some f2 =>
      rw [h2, Option.some_bind] at hrun
      have hWF0 : (BloomFilter.from_initalized store hs).data.length =
          (BloomFilter.from_initalized store hs).data_len := rfl
      obtain ⟨p1, p2, p3, _⟩ := add_seq_preserved pre _ f1 h1 hWF0
      have hWF1 : f1.data.length = f1.data_len := by rw [p3, hWF0, p1]
      obtain ⟨idxs, d, hidx, hsetl, hf2⟩ := add_cases f1 x f2 h2
      obtain ⟨a1, a2, a3, a4, achar⟩ := add_char f1 f2 x idxs hWF1 hidx h2
      have hWF2 : f2.data.length = f2.data_len := by rw [a4, hWF1, a1]
      obtain ⟨q1, q2, q3, q4⟩ := add_seq_preserved post f2 g hrun hWF2
      have hWFg : g.data.length = g.data_len := by rw [q3, hWF2, q1]
      have hbits : ∀ i ∈ idxs,
          f2.data.getD (i / 8) 0 &&& (128 >>> (i % 8)) = 128 >>> (i % 8) := by
        intro i hi
        rw [achar (i / 8), Nat.or_comm]
        exact mask_stays _ _ _ (byte_or_mem idxs i hi)
      have hbitsg : ∀ i ∈ idxs,
          g.data.getD (i / 8) 0 &&& (128 >>> (i % 8)) = 128 >>> (i % 8) :=
        fun i hi => q4 _ _ (hbits i hi)
      have hidxg : g.get_bit_indecies x = some idxs := by
        rw [get_bit_indecies_congr g f1 x (by rw [q1, a1]) (by rw [q2, a2])]
        exact hidx
      exact never_occured_all_set g x idxs hWFg hidxg hbitsg

/-- Witness for C4: buffer `[0, 0]`, one identity hasher, add 3, query 3. -/
theorem c4_witness :
    ([0, 0] : List Nat) ≠ [] ∧
    BloomFilter.never_occured ⟨[16, 0], 2, 1, [fun n : Nat => n]⟩ 3 =
      some false := by
  constructor
  · simp
  · exact c4_never_occured_false_after_add [0, 0] [fun n : Nat => n] 3 [] []
      ⟨[16, 0], 2, 1, [fun n : Nat => n]⟩ (by simp) (by rfl)

/-! ## Claim C9 -/

/-- C9 counterexample: the `src/lib.rs` variant's `add` does not increment
the elements-added counter.  On a fresh one-byte filter (counter 0), after
one `add` the counter is still 0, not 1. -/
theorem c9_counterexample :
    (BloomFilter.add2 (BloomFilter.from_initalized [0] [fun n : Nat => n]) 0).map
      (fun g => g.elmts_added) ≠ some 1 := by
  have h : (BloomFilter.add2
      (BloomFilter.from_initalized [0] [fun n : Nat => n]) 0).map
      (fun g => g.elmts_added) = some 0 := rfl
  rw [h]
  simp

/-- C9 amended: the `src/bloomfilter.rs` `add` increments the counter by
exactly 1 and changes no field but the storage and the counter; the
`src/lib.rs` `add` changes only the storage, leaving the counter (and the
other fields) unchanged. -/
theorem c9_add_frame (f : BloomFilter E) (e : E) (gA gB : BloomFilter E)
    (hA : f.add e = some gA) (hB : f.add2 e = some gB) :
    (gA.elmts_added = f.elmts_added + 1 ∧ gA.data_len = f.data_len ∧
      gA.hashers = f.hashers) ∧
    (gB.elmts_added = f.elmts_added ∧ gB.data_len = f.data_len ∧
      gB.hashers = f.hashers) := by
  obtain ⟨idxs, d, _, _, rfl⟩ := add_cases f e gA hA
  obtain ⟨idxs2, el, _, _, rfl⟩ := add2_cases f e gB hB
  exact ⟨⟨rfl, rfl, rfl⟩, ⟨rfl, rfl, rfl⟩⟩

/-- Witness for C9's amended statement on a concrete one-byte filter. -/
theorem c9_witness :
    ((⟨[128], 1, 1, [fun n : Nat => n]⟩ : BloomFilter Nat).elmts_added =
        (BloomFilter.from_initalized [0] [fun n : Nat => n]).elmts_added + 1 ∧
      (⟨[128], 1, 1, [fun n : Nat => n]⟩ : BloomFilter Nat).data_len =
        (BloomFilter.from_initalized [0] [fun n : Nat => n]).data_len ∧
      (⟨[128], 1, 1, [fun n : Nat => n]⟩ : BloomFilter Nat).hashers =
        (BloomFilter.from_initalized [0] [fun n : Nat => n]).hashers) ∧
    ((⟨[128], 1, 0, [fun n : Nat => n]⟩ : BloomFilter Nat).elmts_added =
        (BloomFilter.from_initalized [0] [fun n : Nat => n]).elmts_added ∧
      (⟨[128], 1, 0, [fun n : Nat => n]⟩ : BloomFilter Nat).data_len =
        (BloomFilter.from_initalized [0] [fun n : Nat => n]).data_len ∧
      (⟨[128], 1, 0, [fun n : Nat => n]⟩ : BloomFilter Nat).hashers =
        (BloomFilter.from_initalized [0] [fun n : Nat => n]).hashers) :=
  c9_add_frame (BloomFilter.from_initalized [0] [fun n : Nat => n]) 0
    ⟨[128], 1, 1, [fun n : Nat => n]⟩ ⟨[128], 1, 0, [fun n : Nat => n]⟩ rfl rfl

/-! ## Claim C10 -/

/-- The bit-setting loop only ORs: set bits stay set. -/
theorem set_bits_loop_mono : ∀ (idxs store store2 : List Nat),
    set_bits_loop store idxs = some store2 →
    ∀ n j, (store.getD n 0).testBit j = true →
      (store2.getD n 0).testBit j = true := by
  intro idxs
  induction idxs with
  | nil =>
    intro s s2 h n j hb
    simp only [set_bits_loop, Option.some.injEq] at h
    rw [← h]
    exact hb
  | cons i rest ih =>
    intro s s2 h n j hb
    simp only [set_bits_loop] at h
    cases hg : s[(get_single_bit_mask i).1]? with
    | none => rw [hg] at h; simp at h
    | some b =>
      rw [hg] at h
      apply ih _ _ h
      by_cases hn : (get_single_bit_mask i).1 = n
      · subst hn
        have hblt : (get_single_bit_mask i).1 < s.length :=
          (List.getElem?_eq_some.mp hg).1
        rw [getD_set_self _ _ _ hblt]
        have hbb : s.getD (get_single_bit_mask i).1 0 = b := by
          rw [List.getD_eq_getElem?_getD, hg]
          rfl
        rw [hbb] at hb
        simp [Nat.testBit_or, hb]
      · rw [getD_set_ne _ _ _ _ hn]
        exact hb

/-- `or_into` only ORs: set bits stay set. -/
theorem or_into_mono : ∀ (s el : List Nat) (n j : Nat),
    (s.getD n 0).testBit j = true → ((or_into s el).getD n 0).testBit j = true
  | [], [], _, _ => fun hb => hb
  | _ :: _, [], _, _ => fun hb => hb
  | [], _ :: _, n, j => fun hb => by
    rw [List.getD_eq_getElem?_getD] at hb
    simp [Nat.zero_testBit] at hb
  | a :: ss, b :: es, 0, j => fun hb => by
    show ((a ||| b)).testBit j = true
    have hb2 : a.testBit j = true := hb
    simp [Nat.testBit_or, hb2]
  | a :: ss, b :: es, n + 1, j => fun hb => or_into_mono ss es n j hb

/-- Run monotonicity, bit-by-bit variant: no operation clears a bit. -/
theorem runA_mono : ∀ (ops : List (FOp E)) (f g : BloomFilter E)
    (out : List Bool), runA f ops = some (g, out) →
    ∀ n j, (f.data.getD n 0).testBit j = true →
      (g.data.getD n 0).testBit j = true := by
  intro ops
  induction ops with
  | nil =>
    intro f g out h n j hb
    simp only [runA, Option.some.injEq, Prod.mk.injEq] at h
    rw [← h.1]
    exact hb
  | cons op rest ih =>
    intro f g out h n j hb
    match op with
    | FOp.addOp e =>
      simp only [runA] at h
      cases ha : f.add e with
      | none => rw [ha] at h; simp at h
      | some f2 =>
        rw [ha, Option.some_bind] at h
        obtain ⟨idxs, d, hidx, hset, rfl⟩ := add_cases f e f2 ha
        exact ih _ g out h n j (set_bits_loop_mono idxs f.data d hset n j hb)
    | FOp.queryOp e =>
      simp only [runA] at h
      cases hq : f.never_occured e with
      | none => rw [hq] at h; simp at h
      | some b =>
        rw [hq, Option.some_bind] at h
        cases hr : runA f rest with
        | none => rw [hr] at h; simp at h
        | some p =>
          rw [hr] at h
          simp only [Option.map_some', Option.some.injEq, Prod.mk.injEq] at h
          rw [← h.1]
          exact ih f p.1 p.2 hr n j hb

/-- Run monotonicity, mask-buffer variant: no operation clears a bit. -/
theorem runB_mono : ∀ (ops : List (FOp E)) (f g : BloomFilter E)
    (out : List Bool), runB f ops = some (g, out) →
    ∀ n j, (f.data.getD n 0).testBit j = true →
      (g.data.getD n 0).testBit j = true := by
  intro ops
  induction ops with
  | nil =>
    intro f g out h n j hb
    simp only [runB, Option.some.injEq, Prod.mk.injEq] at h
    rw [← h.1]
    exact hb
  | cons op rest ih =>
    intro f g out h n j hb
    match op with
    | FOp.addOp e =>
      simp only [runB] at h
      cases ha : f.add2 e with
      | none => rw [ha] at h; simp at h
      | some f2 =>
        rw [ha, Option.some_bind] at h
        obtain ⟨idxs, el, hidx, hset, rfl⟩ := add2_cases f e f2 ha
        exact ih _ g out h n j (or_into_mono f.data el n j hb)
    | FOp.queryOp e =>
      simp only [runB] at h
      cases hq : f.never_occured2 e with
      | none => rw [hq] at h; simp at h
      | some b =>
        rw [hq, Option.some_bind] at h
        cases hr : runB f rest with
        | none => rw [hr] at h; simp at h
        | some p =>
          rw [hr] at h
          simp only [Option.map_some', Option.some.injEq, Prod.mk.injEq] at h
          rw [← h.1]
          exact ih f p.1 p.2 hr n j hb

/-- C10: no filter operation ever clears a storage bit.  `add` (either
variant) only ORs masks into the storage; the queries and size readers take
`&self` in Rust and are embedded as pure functions, so a run of any operation
sequence only ever grows the set of set bits. -/
theorem c10_bits_never_cleared (f g : BloomFilter E) (ops : List (FOp E))
    (out : List Bool) (n j : Nat) :
    (runA f ops = some (g, out) → (f.data.getD n 0).testBit j = true →
      (g.data.getD n 0).testBit j = true) ∧
    (runB f ops = some (g, out) → (f.data.getD n 0).testBit j = true →
      (g.data.getD n 0).testBit j = true) :=
  ⟨fun h hb => runA_mono ops f g out h n j hb,
   fun h hb => runB_mono ops f g out h n j hb⟩

/-- Witness for C10: one byte `[1]` (bit 7 set), one add that sets bit 0,
the original bit is still set afterwards. -/
theorem c10_witness :
    (((⟨[129], 1, 1, [fun n : Nat => n]⟩ : BloomFilter Nat).data.getD 0
      0).testBit 0) = true :=
  (c10_bits_never_cleared ⟨[1], 1, 0, [fun n : Nat => n]⟩
    ⟨[129], 1, 1, [fun n : Nat => n]⟩ [FOp.addOp 0] [] 0 0).1 rfl rfl

/-! ## Claim C5: the two filter variants are observationally equivalent -/

/-- On a well-formed state, the two index computations agree (one reads
`data_len`, the other the storage slice's length). -/
theorem indecies2_eq (fA fB : BloomFilter E) (e : E)
    (hd : fA.data = fB.data) (hh : fA.hashers = fB.hashers)
    (hWF : fA.data.length = fA.data_len) :
    fA.get_bit_indecies e = fB.get_bit_indecies2 e := by
  unfold BloomFilter.get_bit_indecies BloomFilter.get_bit_indecies2
  rw [← hd, ← hh, hWF]

/-- One `add` step in both variants: either both panic, or both succeed with
the same storage bytes. -/
theorem add_add2_core (fA fB : BloomFilter E) (e : E)
    (hd : fA.data = fB.data) (hl : fA.data_len = fB.data_len)
    (hh : fA.hashers = fB.hashers) (hWF : fA.data.length = fA.data_len) :
    (fA.add e = none ∧ fB.add2 e = none) ∨
    (∃ gA gB, fA.add e = some gA ∧ fB.add2 e = some gB ∧
      gA.data = gB.data ∧ gA.data_len = fA.data_len ∧ gA.hashers = fA.hashers ∧
      gB.data_len = fB.data_len ∧ gB.hashers = fB.hashers ∧
      gA.data.length = gA.data_len) := by
  have hie := indecies2_eq fA fB e hd hh hWF
  cases hidx : fA.get_bit_indecies e with
  | none =>
    left
    constructor
    · unfold BloomFilter.add
      rw [hidx]
      rfl
    · unfold BloomFilter.add2
      rw [← hie, hidx]
      rfl
  | some idxs =>
    right
    have hbound : ∀ i ∈ idxs, i / 8 < fA.data.length := by
      intro i hi
      rw [hWF]
      exact div8_lt _ _ (get_bit_indecies_bound fA e idxs hidx i hi)
    obtain ⟨mA, hmA, hlenA, hcharA⟩ := set_multi_char idxs fA.data hbound
    have hsetA : set_bits_loop fA.data idxs = some mA := by
      rw [set_bits_loop_eq]
      exact hmA
    have hboundB : ∀ i ∈ idxs,
        i / 8 < (List.replicate fB.data_len (0 : Nat)).length := by
      intro i hi
      rw [List.length_replicate, ← hl]
      exact div8_lt _ _ (get_bit_indecies_bound fA e idxs hidx i hi)
    obtain ⟨el, hel, hlenel, hcharel⟩ :=
      set_multi_char idxs (List.replicate fB.data_len 0) hboundB
    have hlen3 : el.length = fB.data.length := by
      rw [hlenel, List.length_replicate, ← hl, ← hWF, hd]
    refine ⟨{ fA with data := mA, elmts_added := fA.elmts_added + 1 },
      { fB with data := or_into fB.data el }, ?_, ?_, ?_, rfl, rfl, rfl, rfl, ?_⟩
    · unfold BloomFilter.add
      rw [hidx, Option.some_bind, hsetA]
      rfl
    · unfold BloomFilter.add2
      rw [← hie, hidx, Option.some_bind, hel]
      rfl
    · show mA = or_into fB.data el
      apply list_eq_of_getD
      · rw [hlenA, or_into_length, hd]
      · intro n
        rw [hcharA n, or_into_getD fB.data el hlen3 n, hcharel n,
          getD_replicate_zero, Nat.zero_or, hd]
    · show mA.length = fA.data_len
      rw [hlenA, hWF]

/-- One `never_occured` query in both variants returns the same result. -/
theorem query_query2_core (fA fB : BloomFilter E) (e : E)
    (hd : fA.data = fB.data) (hl : fA.data_len = fB.data_len)
    (hh : fA.hashers = fB.hashers) (hWF : fA.data.length = fA.data_len) :
    fA.never_occured e = fB.never_occured2 e := by
  have hie := indecies2_eq fA fB e hd hh hWF
  unfold BloomFilter.never_occured BloomFilter.never_occured2
  rw [← hie]
  cases hidx : fA.get_bit_indecies e with
  | none => rfl
  | some idxs =>
    rw [Option.some_bind, Option.some_bind]
    have hbound : ∀ i ∈ idxs, i / 8 < fA.data.length := by
      intro i hi
      rw [hWF]
      exact div8_lt _ _ (get_bit_indecies_bound fA e idxs hidx i hi)
    rw [test_bits_loop_char fA.data idxs hbound]
    have hboundB : ∀ i ∈ idxs,
        i / 8 < (List.replicate fB.data_len (0 : Nat)).length := by
      intro i hi
      rw [List.length_replicate, ← hl]
      exact div8_lt _ _ (get_bit_indecies_bound fA e idxs hidx i hi)
    obtain ⟨el, hel, hlenel, hcharel⟩ :=
      set_multi_char idxs (List.replicate fB.data_len 0) hboundB
    have hlen3 : el.length = fB.data.length := by
      rw [hlenel, List.length_replicate, ← hl, ← hWF, hd]
    rw [hel, Option.map_some']
    congr 1
    rw [zip_any_char el fB.data hlen3, decide_eq_decide]
    constructor
    · rintro ⟨i, hi, hne⟩
      refine ⟨i / 8, by rw [← hd]; exact hbound i hi, ?_⟩
      rw [hcharel, getD_replicate_zero, Nat.zero_or]
      intro hcontra
      have hbit := (byte_or_sub_iff _ idxs (i / 8)).mp hcontra i hi rfl
      rw [← hd] at hbit
      exact hne hbit
    · rintro ⟨n, hn, hne⟩
      rw [hcharel, getD_replicate_zero, Nat.zero_or] at hne
      by_contra hP
      push_neg at hP
      apply hne
      rw [byte_or_sub_iff]
      intro i hi hin
      have hbit := hP i hi
      rw [hd] at hbit
      rw [← hin]
      exact hbit

/-- Runs of the same operation list over the two variants, started from
states with the same storage, capacity, and hashers, produce the same
storage bytes and the same query answers (and panic together). -/
theorem runAB_core : ∀ (ops : List (FOp E)) (fA fB : BloomFilter E),
    fA.data = fB.data → fA.data_len = fB.data_len → fA.hashers = fB.hashers →
    fA.data.length = fA.data_len →
    (runA fA ops).map (fun p => (p.1.data, p.2)) =
      (runB fB ops).map (fun p => (p.1.data, p.2)) := by
  intro ops
  induction ops with
  | nil =>
    intro fA fB hd _ _ _
    simp [runA, runB, hd]
  | cons op rest ih =>
    intro fA fB hd hl hh hWF
    match op with
    | FOp.addOp e =>
      simp only [runA, runB]
      rcases add_add2_core fA fB e hd hl hh hWF with
        ⟨hA, hB⟩ | ⟨gA, gB, hA, hB, g1, g2, g3, g4, g5, g6⟩
      · rw [hA, hB]
        rfl
      · rw [hA, hB, Option.some_bind, Option.some_bind]
        exact ih gA gB g1 (by rw [g2, g4, hl]) (by rw [g3, g5, hh]) g6
    | FOp.queryOp e =>
      simp only [runA, runB]
      rw [query_query2_core fA fB e hd hl hh hWF]
      cases hq : fB.never_occured2 e with
      | none => rfl
      | some b =>
        rw [Option.some_bind, Option.some_bind]
        have hrest := ih fA fB hd hl hh hWF
        cases hrA : runA fA rest with
        | none =>
          cases hrB : runB fB rest with
          | none => rfl
          | some q =>
            rw [hrA, hrB] at hrest
            simp at hrest
        | some p =>
          cases hrB : runB fB rest with
          | none =>
            rw [hrA, hrB] at hrest
            simp at hrest
          | some q =>
            rw [hrA, hrB] at hrest
            simp only [Option.map_some', Option.some.injEq,
              Prod.mk.injEq] at hrest
            simp [hrA, hrB, Option.map_some', hrest.1, hrest.2]

/-- C5: starting from the same buffer and hasher family, any sequence of
`add` and `never_occured` calls gives identical storage bitmaps and
identical query answers in the bit-by-bit (`src/bloomfilter.rs`) and
mask-buffer (`src/lib.rs`) variants (and any panic occurs in both). -/
theorem c5_variants_equivalent (store : List Nat) (hs : List (E → Nat))
    (ops : List (FOp E)) :
    (runA (BloomFilter.from_initalized store hs) ops).map
        (fun p => (p.1.data, p.2)) =
      (runB (BloomFilter.from_initalized store hs) ops).map
        (fun p => (p.1.data, p.2)) :=
  runAB_core ops _ _ rfl rfl rfl rfl

/-! ## Claim C8 -/

/-- C8: `single_bit_mask(0)` is byte 0 with mask `0x80`; `single_bit_mask(21)`
is byte 2 with mask `0x04`; and applying the bit offsets
`{2, 5, 11, 21, 22, 25, 31}` to a zeroed 4-byte buffer yields the bytes
`[0x24, 0x10, 0x06, 0x41]`. -/
theorem c8_bit_index_utils :
    get_single_bit_mask 0 = (0, 0x80) ∧
    get_single_bit_mask 21 = (2, 0x04) ∧
    set_multi_bitmask [0, 0, 0, 0] [2, 5, 11, 21, 22, 25, 31] =
      some [0x24, 0x10, 0x06, 0x41] := by
  refine ⟨rfl, rfl, ?_⟩
  decide

end BloomSpec
